import Mathlib

/-!
Verification of the interval remapping pipeline of AoC 2023 Day 05
(`src/bin/day05.rs`).  Rust `RangeInclusive<usize>` values are embedded as
`Interval` (a pair of naturals, inclusive ends); `usize` arithmetic is
embedded as `Nat` arithmetic, with the guarded subtractions of the source
modelled explicitly (see the `csub`-based checked variants).
-/

namespace Day05

/-- Inclusive range `start..=stop` of naturals (Rust `RangeInclusive<usize>`). -/
structure Interval where
  start : Nat
  stop : Nat
deriving DecidableEq, Repr

/-- Number of integer members of an inclusive range (for well-formed ranges). -/
def Interval.len (i : Interval) : Nat := i.stop - i.start + 1

/-- Well-formedness of an inclusive range: `start <= stop`. -/
def Interval.wfb (i : Interval) : Bool := decide (i.start ≤ i.stop)

/-- The integer members of an inclusive range, in order. -/
def Interval.members (i : Interval) : List Nat :=
  (List.range i.len).map (fun k => i.start + k)

/-- One `(dest_range, source_range)` pair of the Rust `range_mappings` vector. -/
structure RangeMapping where
  dest : Interval
  source : Interval
deriving DecidableEq, Repr

/-- The `RangeMap` struct: a collection of destination/source range pairs. -/
structure RangeMap where
  range_mappings : List RangeMapping
deriving DecidableEq, Repr

/-- The numeric part of `RangeMap::new` for one parsed line
`(dest_start, source_start, range_len)`: builds
`dest_start..=(dest_start + range_len - 1)` and
`source_start..=(source_start + range_len - 1)`. -/
def mkMapping (dest_start source_start range_len : Nat) : RangeMapping :=
  { dest := ⟨dest_start, dest_start + range_len - 1⟩
    source := ⟨source_start, source_start + range_len - 1⟩ }

/-- Loop body of `RangeMap::map_source_value_to_destination`: scan the
mappings, return `dest.start + (v - source.start)` for the first mapping
whose source range contains `v`; fall through to `v` itself. -/
def mapValueGo (v : Nat) : List RangeMapping → Nat
  | [] => v
  | m :: rest =>
    if m.source.start ≤ v ∧ v ≤ m.source.stop then
      m.dest.start + (v - m.source.start)
    else
      mapValueGo v rest

/-- `RangeMap::map_source_value_to_destination`. -/
def RangeMap.map_source_value_to_destination (rm : RangeMap) (v : Nat) : Nat :=
  mapValueGo v rm.range_mappings

/-- Loop of `RangeMap::map_source_range_to_destination_range`: skip mappings
whose source range does not overlap the input range; at the first overlap,
push the translated overlap, then the unmapped left and right remainders,
and break out of the loop. -/
def mapRangeLoop (r : Interval) : List RangeMapping → List Interval
  | [] => []
  | m :: rest =>
    if r.stop < m.source.start ∨ r.start > m.source.stop then
      mapRangeLoop r rest
    else
      let overlap_start := max r.start m.source.start
      let overlap_end := min r.stop m.source.stop
      let delta := overlap_start - m.source.start
      let length := overlap_end - overlap_start
      let dest_start := m.dest.start + delta
      let dest_end := dest_start + length
      [⟨dest_start, dest_end⟩] ++
        (if r.start < m.source.start then [⟨r.start, m.source.start - 1⟩] else []) ++
        (if r.stop > m.source.stop then [⟨m.source.stop + 1, r.stop⟩] else [])

/-- `RangeMap::map_source_range_to_destination_range`: run the loop; if no
mapping overlapped the input range, return the input range unchanged as a
singleton. -/
def RangeMap.map_source_range_to_destination_range (rm : RangeMap) (r : Interval) :
    List Interval :=
  let range_overlaps := mapRangeLoop r rm.range_mappings
  if range_overlaps = [] then [r] else range_overlaps

/-- Ordered concatenation of the per-element outputs
(the `new_ranges.extend(output)` loop of `solve_part2`). -/
def concatMap (f : α → List β) : List α → List β
  | [] => []
  | x :: rest => f x ++ concatMap f rest

/-- One stage of the part-2 pipeline: map every working interval through the
range map and concatenate the results in order. -/
def applyStage (rm : RangeMap) (coll : List Interval) : List Interval :=
  concatMap rm.map_source_range_to_destination_range coll

/-- The `for range_map in range_maps` loop of `solve_part2`. -/
def applyStages : List RangeMap → List Interval → List Interval
  | [], coll => coll
  | rm :: rest, coll => applyStages rest (applyStage rm coll)

/-- The full interval pipeline for one seed range: start from the singleton
collection and apply every stage in order. -/
def runSeed (maps : List RangeMap) (sr : Interval) : List Interval :=
  applyStages maps [sr]

/-- `Iterator::min` over a list of naturals: `none` on the empty list. -/
def listMin : List Nat → Option Nat
  | [] => none
  | x :: rest =>
    match listMin rest with
    | none => some x
    | some m => some (min x m)

/-- The `lowest_location` update of both solvers:
`if lowest.is_none() || lowest.unwrap() > v { lowest = Some(v) }`. -/
def updateLowest (lowest : Option Nat) (v : Nat) : Option Nat :=
  match lowest with
  | none => some v
  | some l => if l > v then some v else some l

/-- The `for seed_range in seed_ranges` loop of `solve_part2`.  The inner
`.min().unwrap()` of the Rust source is modelled by `listMin`; its
(unreachable) panic on an empty collection is modelled by `none`. -/
def part2Go (maps : List RangeMap) : List Interval → Option Nat → Option Nat
  | [], lowest => lowest
  | sr :: rest, lowest =>
    match listMin ((runSeed maps sr).map Interval.start) with
    | none => none
    | some run_lowest => part2Go maps rest (updateLowest lowest run_lowest)

/-- `solve_part2`: the final `lowest_location.unwrap()` panic on an empty
seed collection is modelled by `none`. -/
def solve_part2 (input : List Interval × List RangeMap) : Option Nat :=
  part2Go input.2 input.1 none

/-- The seed extraction of `solve_part1`: each seed range contributes its
start and its recovered length as two individual seed values. -/
def part1Seeds (seed_ranges : List Interval) : List Nat :=
  concatMap (fun r => [r.start, r.stop - r.start + 1]) seed_ranges

/-- Mapping a single value through every stage in order
(the inner loop of `solve_part1`, and the point-wise mode of the spec). -/
def mapValueStages : List RangeMap → Nat → Nat
  | [], v => v
  | rm :: rest, v => mapValueStages rest (rm.map_source_value_to_destination v)

/-- The `for seed in seeds` loop of `solve_part1`. -/
def part1Go (maps : List RangeMap) : List Nat → Option Nat → Option Nat
  | [], lowest => lowest
  | s :: rest, lowest =>
    part1Go maps rest (updateLowest lowest (mapValueStages maps s))

/-- `solve_part1`: the final `lowest_location.unwrap()` panic on an empty
seed collection is modelled by `none`. -/
def solve_part1 (input : List Interval × List RangeMap) : Option Nat :=
  part1Go input.2 (part1Seeds input.1) none

/-- The point-wise exhaustive mode described by the spec: decompose each
seed interval into its individual integer members, map every member through
every stage with the single-value lookup, and take the global minimum. -/
def pointwiseMode (seeds : List Interval) (maps : List RangeMap) : Option Nat :=
  listMin (concatMap (fun sr => sr.members.map (mapValueStages maps)) seeds)

/-- Whether a mapping's source range overlaps the interval `r`
(the negation of the `continue` guard of the range-mapping loop). -/
def overlapb (r : Interval) (m : RangeMapping) : Bool :=
  !(decide (r.stop < m.source.start) || decide (r.start > m.source.stop))

/-- Whether a mapping's source range contains the value `v`
(Rust `RangeInclusive::contains`). -/
def containsb (v : Nat) (m : RangeMapping) : Bool :=
  decide (m.source.start ≤ v) && decide (v ≤ m.source.stop)

/-- At most one mapping of the range map overlaps the interval `r`. -/
def atMostOneb (rm : RangeMap) (r : Interval) : Bool :=
  decide ((rm.range_mappings.filter (overlapb r)).length ≤ 1)

/-- Every source range of the range map is well-formed. -/
def wfSourcesb (rm : RangeMap) : Bool :=
  rm.range_mappings.all (fun m => m.source.wfb)

/-- Along the whole pipeline, every working interval of every stage's input
collection overlaps at most one mapping of that stage. -/
def goodb : List RangeMap → List Interval → Bool
  | [], _ => true
  | rm :: rest, coll =>
    coll.all (fun r => atMostOneb rm r) && goodb rest (applyStage rm coll)

/-- `v` is a member of some interval of the collection. -/
def covers (coll : List Interval) (v : Nat) : Prop :=
  ∃ i ∈ coll, i.start ≤ v ∧ v ≤ i.stop

/-- Minimum of two optional naturals, `none` acting as the identity. -/
def omin : Option Nat → Option Nat → Option Nat
  | none, b => b
  | some a, none => some a
  | some a, some b => some (min a b)

/-- Checked subtraction: `none` models a `usize` underflow panic. -/
def csub (a b : Nat) : Option Nat := if b ≤ a then some (a - b) else none

/-- `map_source_value_to_destination` with its subtraction checked. -/
def mapValueGoChecked (v : Nat) : List RangeMapping → Option Nat
  | [] => some v
  | m :: rest =>
    if m.source.start ≤ v ∧ v ≤ m.source.stop then
      (csub v m.source.start).map (fun d => m.dest.start + d)
    else
      mapValueGoChecked v rest

/-- `map_source_range_to_destination_range`'s loop with every subtraction
checked. -/
def mapRangeLoopChecked (r : Interval) : List RangeMapping → Option (List Interval)
  | [] => some []
  | m :: rest =>
    if r.stop < m.source.start ∨ r.start > m.source.stop then
      mapRangeLoopChecked r rest
    else
      let overlap_start := max r.start m.source.start
      let overlap_end := min r.stop m.source.stop
      (csub overlap_start m.source.start).bind (fun delta =>
        (csub overlap_end overlap_start).bind (fun length =>
          let dest_start := m.dest.start + delta
          let dest_end := dest_start + length
          (if r.start < m.source.start then
            (csub m.source.start 1).map (fun left_end => [(⟨r.start, left_end⟩ : Interval)])
          else some []).map (fun left =>
            [(⟨dest_start, dest_end⟩ : Interval)] ++ left ++
              (if r.stop > m.source.stop then [(⟨m.source.stop + 1, r.stop⟩ : Interval)] else []))))

/-- `map_source_range_to_destination_range` with every subtraction checked. -/
def mapRangeChecked (rm : RangeMap) (r : Interval) : Option (List Interval) :=
  (mapRangeLoopChecked r rm.range_mappings).map
    (fun range_overlaps => if range_overlaps = [] then [r] else range_overlaps)

/-- The best (minimum-start) location reachable from one seed range through
the whole pipeline; the default value `0` of `Option.getD` is dead because
the pipeline never produces an empty collection. -/
def specBest (maps : List RangeMap) (sr : Interval) : Nat :=
  (listMin ((runSeed maps sr).map Interval.start)).getD 0

/-- The three pieces emitted for the first overlapping mapping `m` of an
input range `r`: the overlap translated to the destination, then the
unmapped left and right remainders of `r`. -/
def overlapPieces (r : Interval) (m : RangeMapping) : List Interval :=
  [⟨m.dest.start + (max r.start m.source.start - m.source.start),
    m.dest.start + (max r.start m.source.start - m.source.start) +
      (min r.stop m.source.stop - max r.start m.source.start)⟩] ++
    (if r.start < m.source.start then [⟨r.start, m.source.start - 1⟩] else []) ++
    (if r.stop > m.source.stop then [⟨m.source.stop + 1, r.stop⟩] else [])

/-- Concrete stage used by the witnesses (the first stage of the canonical
example: mappings `50 98 2` and `52 50 48`). -/
def exStage : RangeMap := ⟨[mkMapping 50 98 2, mkMapping 52 50 48]⟩

/-! ## Helper lemmas -/

lemma overlapb_true {r : Interval} {m : RangeMapping} :
    overlapb r m = true ↔ (m.source.start ≤ r.stop ∧ r.start ≤ m.source.stop) := by
  simp [overlapb]

lemma overlapb_false {r : Interval} {m : RangeMapping} :
    overlapb r m = false ↔ (r.stop < m.source.start ∨ m.source.stop < r.start) := by
  simp [overlapb]
  omega

lemma containsb_true {v : Nat} {m : RangeMapping} :
    containsb v m = true ↔ (m.source.start ≤ v ∧ v ≤ m.source.stop) := by
  simp [containsb]

lemma mapValueGo_of_not_contains {v : Nat} :
    ∀ {l : List RangeMapping}, (∀ m ∈ l, containsb v m = false) → mapValueGo v l = v
  | [], _ => rfl
  | m :: rest, h => by
    have hm : containsb v m = false := h m (List.mem_cons_self m rest)
    have : ¬(m.source.start ≤ v ∧ v ≤ m.source.stop) := by
      intro hc
      rw [containsb_true.2 hc] at hm
      exact Bool.noConfusion hm
    rw [mapValueGo, if_neg this]
    exact mapValueGo_of_not_contains (fun m' hm' => h m' (List.mem_cons_of_mem m hm'))

lemma mapValueGo_find (v : Nat) :
    ∀ l : List RangeMapping,
      mapValueGo v l =
        match l.find? (containsb v) with
        | some m => m.dest.start + (v - m.source.start)
        | none => v
  | [] => rfl
  | m :: rest => by
    by_cases h : m.source.start ≤ v ∧ v ≤ m.source.stop
    · rw [mapValueGo, if_pos h, List.find?_cons_of_pos _ (containsb_true.2 h)]
    · have hf : containsb v m = false := by
        rw [Bool.eq_false_iff]
        intro hc
        exact h (containsb_true.1 hc)
      rw [mapValueGo, if_neg h, List.find?_cons_of_neg _ (Bool.eq_false_iff.mp hf)]
      exact mapValueGo_find v rest

lemma overlapPieces_ne_nil (r : Interval) (m : RangeMapping) :
    overlapPieces r m ≠ [] := by
  simp [overlapPieces]

lemma mapRangeLoop_find (r : Interval) :
    ∀ l : List RangeMapping,
      mapRangeLoop r l =
        match l.find? (overlapb r) with
        | some m => overlapPieces r m
        | none => []
  | [] => rfl
  | m :: rest => by
    by_cases h : r.stop < m.source.start ∨ r.start > m.source.stop
    · have hf : overlapb r m = false := overlapb_false.2 (by omega)
      rw [mapRangeLoop, if_pos h, List.find?_cons_of_neg _ (Bool.eq_false_iff.mp hf)]
      exact mapRangeLoop_find r rest
    · have hf : overlapb r m = true := overlapb_true.2 (by omega)
      rw [mapRangeLoop, if_neg h, List.find?_cons_of_pos _ hf]
      rfl

lemma mapRange_find (rm : RangeMap) (r : Interval) :
    rm.map_source_range_to_destination_range r =
      match rm.range_mappings.find? (overlapb r) with
      | some m => overlapPieces r m
      | none => [r] := by
  rw [RangeMap.map_source_range_to_destination_range, mapRangeLoop_find]
  cases hf : rm.range_mappings.find? (overlapb r) with
  | none => simp
  | some m => simp [overlapPieces_ne_nil r m]

lemma mapRange_ne_nil (rm : RangeMap) (r : Interval) :
    rm.map_source_range_to_destination_range r ≠ [] := by
  rw [mapRange_find]
  cases hf : rm.range_mappings.find? (overlapb r) with
  | none => simp
  | some m => simpa using overlapPieces_ne_nil r m

lemma mem_concatMap {f : α → List β} {y : β} :
    ∀ {l : List α}, y ∈ concatMap f l ↔ ∃ x ∈ l, y ∈ f x
  | [] => by simp [concatMap]
  | x :: rest => by
    simp only [concatMap, List.mem_append, mem_concatMap, List.mem_cons]
    constructor
    · rintro (h | ⟨x', hx', hy⟩)
      · exact ⟨x, Or.inl rfl, h⟩
      · exact ⟨x', Or.inr hx', hy⟩
    · rintro ⟨x', hx' | hx', hy⟩
      · exact Or.inl (hx' ▸ hy)
      · exact Or.inr ⟨x', hx', hy⟩

lemma concatMap_ne_nil {f : α → List β} {x : α} {l : List α}
    (hx : x ∈ l) (hf : f x ≠ []) : concatMap f l ≠ [] := by
  intro h
  rcases List.exists_mem_of_ne_nil _ hf with ⟨y, hy⟩
  have : y ∈ concatMap f l := mem_concatMap.2 ⟨x, hx, hy⟩
  rw [h] at this
  exact List.not_mem_nil y this

lemma applyStage_ne_nil (rm : RangeMap) {coll : List Interval} (h : coll ≠ []) :
    applyStage rm coll ≠ [] := by
  rcases List.exists_mem_of_ne_nil _ h with ⟨r, hr⟩
  exact concatMap_ne_nil hr (mapRange_ne_nil rm r)

lemma applyStages_ne_nil :
    ∀ (maps : List RangeMap) {coll : List Interval}, coll ≠ [] → applyStages maps coll ≠ []
  | [], _, h => h
  | rm :: rest, _, h => applyStages_ne_nil rest (applyStage_ne_nil rm h)

lemma listMin_ne_none {l : List Nat} (h : l ≠ []) : listMin l ≠ none := by
  cases l with
  | nil => exact absurd rfl h
  | cons x rest =>
    rw [listMin]
    cases listMin rest <;> simp

lemma listMin_mem : ∀ {l : List Nat} {m : Nat}, listMin l = some m → m ∈ l
  | [], _, h => by simp [listMin] at h
  | x :: rest, m, h => by
    rw [listMin] at h
    cases hr : listMin rest with
    | none =>
      rw [hr] at h
      simp only [Option.some.injEq] at h
      exact h ▸ List.mem_cons_self x rest
    | some m' =>
      rw [hr] at h
      simp only [Option.some.injEq] at h
      rcases Nat.le_total x m' with hle | hle
      · rw [min_eq_left hle] at h
        exact h ▸ List.mem_cons_self x rest
      · rw [min_eq_right hle] at h
        exact h ▸ List.mem_cons_of_mem x (listMin_mem hr)

lemma listMin_le : ∀ {l : List Nat} {m : Nat}, listMin l = some m → ∀ x ∈ l, m ≤ x
  | [], _, h => by simp [listMin] at h
  | x :: rest, m, h => by
    rw [listMin] at h
    intro y hy
    cases hr : listMin rest with
    | none =>
      rw [hr] at h
      simp only [Option.some.injEq] at h
      subst h
      have hnil : rest = [] := by
        cases rest with
        | nil => rfl
        | cons a b => exact absurd hr (listMin_ne_none (by simp))
      subst hnil
      rcases List.mem_cons.1 hy with rfl | hy
      · exact Nat.le_refl y
      · exact absurd hy (List.not_mem_nil y)
    | some m' =>
      rw [hr] at h
      simp only [Option.some.injEq] at h
      subst h
      rcases List.mem_cons.1 hy with rfl | hy
      · exact min_le_left _ _
      · exact Nat.le_trans (min_le_right _ _) (listMin_le hr y hy)

lemma listMin_eq_some_of {l : List Nat} {m : Nat}
    (hmem : m ∈ l) (hle : ∀ x ∈ l, m ≤ x) : listMin l = some m := by
  cases hm : listMin l with
  | none => exact absurd hm (listMin_ne_none (List.ne_nil_of_mem hmem))
  | some m' =>
    have h1 : m' ≤ m := listMin_le hm m hmem
    have h2 : m ≤ m' := hle m' (listMin_mem hm)
    rw [Nat.le_antisymm h1 h2]

lemma listMin_cons (x : Nat) (l : List Nat) :
    listMin (x :: l) = omin (some x) (listMin l) := by
  rw [listMin]
  cases listMin l <;> rfl

lemma omin_none_right : ∀ a : Option Nat, omin a none = a
  | none => rfl
  | some _ => rfl

lemma omin_assoc : ∀ a b c : Option Nat, omin (omin a b) c = omin a (omin b c)
  | none, _, _ => rfl
  | some _, none, _ => rfl
  | some _, some _, none => rfl
  | some x, some y, some z => by simp [omin]

lemma listMin_append : ∀ l1 l2 : List Nat, listMin (l1 ++ l2) = omin (listMin l1) (listMin l2)
  | [], l2 => rfl
  | x :: rest, l2 => by
    rw [List.cons_append, listMin_cons, listMin_append rest l2, listMin_cons, omin_assoc]

lemma updateLowest_eq_omin (lowest : Option Nat) (v : Nat) :
    updateLowest lowest v = omin lowest (some v) := by
  cases lowest with
  | none => rfl
  | some l =>
    rw [updateLowest, omin]
    split
    · simp only [Option.some.injEq]
      omega
    · simp only [Option.some.injEq]
      omega

lemma listMin_starts_ne_none (maps : List RangeMap) (sr : Interval) :
    listMin ((runSeed maps sr).map Interval.start) ≠ none := by
  apply listMin_ne_none
  simp only [ne_eq, List.map_eq_nil_iff]
  exact applyStages_ne_nil maps (by simp)

lemma part2Go_eq (maps : List RangeMap) :
    ∀ (seeds : List Interval) (lowest : Option Nat),
      part2Go maps seeds lowest = omin lowest (listMin (seeds.map (specBest maps)))
  | [], lowest => by rw [part2Go, List.map_nil, listMin, omin_none_right]
  | sr :: rest, lowest => by
    rw [part2Go]
    cases hm : listMin ((runSeed maps sr).map Interval.start) with
    | none => exact absurd hm (listMin_starts_ne_none maps sr)
    | some b =>
      have hspec : specBest maps sr = b := by rw [specBest, hm]; rfl
      show part2Go maps rest (updateLowest lowest b) =
        omin lowest (listMin (List.map (specBest maps) (sr :: rest)))
      rw [part2Go_eq maps rest, updateLowest_eq_omin, omin_assoc, List.map_cons,
        listMin_cons, hspec]

lemma covers_append {a b : List Interval} {w : Nat} :
    covers (a ++ b) w ↔ covers a w ∨ covers b w := by
  simp only [covers, List.mem_append]
  constructor
  · rintro ⟨i, hi | hi, hb⟩
    · exact Or.inl ⟨i, hi, hb⟩
    · exact Or.inr ⟨i, hi, hb⟩
  · rintro (⟨i, hi, hb⟩ | ⟨i, hi, hb⟩)
    · exact ⟨i, Or.inl hi, hb⟩
    · exact ⟨i, Or.inr hi, hb⟩

lemma covers_singleton {i : Interval} {w : Nat} :
    covers [i] w ↔ (i.start ≤ w ∧ w ≤ i.stop) := by
  simp [covers]

lemma mem_members {i : Interval} (hi : i.start ≤ i.stop) {v : Nat} :
    v ∈ i.members ↔ (i.start ≤ v ∧ v ≤ i.stop) := by
  simp only [Interval.members, List.mem_map, List.mem_range, Interval.len]
  constructor
  · rintro ⟨k, hk, rfl⟩
    omega
  · intro h
    exact ⟨v - i.start, by omega, by omega⟩

lemma members_ne_nil (i : Interval) : i.members ≠ [] := by
  simp only [Interval.members, ne_eq, List.map_eq_nil_iff, List.range_eq_nil, Interval.len]
  omega

lemma pieces_iff {rs re ss se D w : Nat} (hr : rs ≤ re) (hs : ss ≤ se)
    (h1 : ss ≤ re) (h2 : rs ≤ se) :
    ((D + (max rs ss - ss) ≤ w ∧ w ≤ D + (max rs ss - ss) + (min re se - max rs ss)) ∨
      (rs < ss ∧ rs ≤ w ∧ w ≤ ss - 1) ∨
      (se < re ∧ se + 1 ≤ w ∧ w ≤ re)) ↔
    ∃ v, rs ≤ v ∧ v ≤ re ∧ w = (if ss ≤ v ∧ v ≤ se then D + (v - ss) else v) := by
  constructor
  · rintro (⟨ha, hb⟩ | ⟨hc, hd, he⟩ | ⟨hc, hd, he⟩)
    · refine ⟨max rs ss + (w - (D + (max rs ss - ss))), by omega, by omega, ?_⟩
      rw [if_pos (by omega)]
      omega
    · exact ⟨w, hd, by omega, by rw [if_neg (by omega)]⟩
    · exact ⟨w, by omega, he, by rw [if_neg (by omega)]⟩
  · rintro ⟨v, hv1, hv2, rfl⟩
    by_cases hc : ss ≤ v ∧ v ≤ se
    · rw [if_pos hc]
      left
      omega
    · rw [if_neg hc]
      omega

lemma overlapPieces_wf {r : Interval} {m : RangeMapping} (hr : r.start ≤ r.stop) :
    ∀ i ∈ overlapPieces r m, i.start ≤ i.stop := by
  intro i hi
  rw [overlapPieces, List.append_assoc, List.mem_append, List.mem_append] at hi
  rcases hi with hi | hi | hi
  · rw [List.mem_singleton] at hi
    subst hi
    exact Nat.le_add_right _ _
  · split at hi
    · rw [List.mem_singleton] at hi
      subst hi
      simp only
      omega
    · exact absurd hi (List.not_mem_nil i)
  · split at hi
    · rw [List.mem_singleton] at hi
      subst hi
      simp only
      omega
    · exact absurd hi (List.not_mem_nil i)

lemma mapRange_wf {rm : RangeMap} {r : Interval} (hr : r.start ≤ r.stop) :
    ∀ i ∈ rm.map_source_range_to_destination_range r, i.start ≤ i.stop := by
  intro i hi
  rw [mapRange_find] at hi
  cases hf : rm.range_mappings.find? (overlapb r) with
  | none =>
    rw [hf] at hi
    simp only [List.mem_singleton] at hi
    subst hi
    exact hr
  | some m =>
    rw [hf] at hi
    exact overlapPieces_wf hr i hi

lemma applyStage_wf {rm : RangeMap} {coll : List Interval}
    (hwf : ∀ i ∈ coll, i.start ≤ i.stop) :
    ∀ i ∈ applyStage rm coll, i.start ≤ i.stop := by
  intro i hi
  rcases mem_concatMap.1 hi with ⟨r, hrmem, hir⟩
  exact mapRange_wf (hwf r hrmem) i hir

lemma applyStages_wf :
    ∀ (maps : List RangeMap) {coll : List Interval},
      (∀ i ∈ coll, i.start ≤ i.stop) →
      ∀ i ∈ applyStages maps coll, i.start ≤ i.stop
  | [], _, hwf => hwf
  | rm :: rest, _, hwf => applyStages_wf rest (applyStage_wf hwf)

lemma contains_overlap {r : Interval} {m : RangeMapping} {v : Nat}
    (h1 : r.start ≤ v) (h2 : v ≤ r.stop) (hc : containsb v m = true) :
    overlapb r m = true := by
  rw [containsb_true] at hc
  rw [overlapb_true]
  omega

lemma loop_covers {r : Interval} (hr : r.start ≤ r.stop) :
    ∀ l : List RangeMapping,
      (∀ m ∈ l, m.source.start ≤ m.source.stop) →
      (l.filter (overlapb r)).length ≤ 1 →
      ∀ w,
        covers (if mapRangeLoop r l = [] then [r] else mapRangeLoop r l) w ↔
          ∃ v, r.start ≤ v ∧ v ≤ r.stop ∧ w = mapValueGo v l
  | [] => by
    intro _ _ w
    rw [mapRangeLoop, if_pos rfl, covers_singleton]
    constructor
    · intro h
      exact ⟨w, h.1, h.2, rfl⟩
    · rintro ⟨v, h1, h2, rfl⟩
      exact ⟨h1, h2⟩
  | m :: rest => by
    intro hs hlen w
    by_cases hskip : r.stop < m.source.start ∨ r.start > m.source.stop
    · have hov : overlapb r m = false := overlapb_false.2 (by omega)
      have hloop : mapRangeLoop r (m :: rest) = mapRangeLoop r rest := by
        rw [mapRangeLoop, if_pos hskip]
      have hfil : (m :: rest).filter (overlapb r) = rest.filter (overlapb r) :=
        List.filter_cons_of_neg (Bool.eq_false_iff.mp hov)
      rw [hfil] at hlen
      have hval : ∀ v, r.start ≤ v → v ≤ r.stop → mapValueGo v (m :: rest) = mapValueGo v rest := by
        intro v h1 h2
        rw [mapValueGo, if_neg (by omega)]
      rw [hloop, loop_covers hr rest (fun m' hm' => hs m' (List.mem_cons_of_mem m hm')) hlen w]
      constructor
      · rintro ⟨v, h1, h2, rfl⟩
        exact ⟨v, h1, h2, (hval v h1 h2).symm⟩
      · rintro ⟨v, h1, h2, rfl⟩
        exact ⟨v, h1, h2, hval v h1 h2⟩
    · have hov : overlapb r m = true := overlapb_true.2 (by omega)
      have hloop : mapRangeLoop r (m :: rest) = overlapPieces r m := by
        rw [mapRangeLoop, if_neg hskip]
        rfl
      have hfil : (m :: rest).filter (overlapb r) = m :: rest.filter (overlapb r) :=
        List.filter_cons_of_pos hov
      rw [hfil] at hlen
      rw [List.length_cons] at hlen
      have hrest : ∀ m' ∈ rest, overlapb r m' = false := by
        intro m' hm'
        have : rest.filter (overlapb r) = [] := List.length_eq_zero.1 (by omega)
        by_contra hne
        have hmem : m' ∈ rest.filter (overlapb r) :=
          List.mem_filter.2 ⟨hm', Bool.not_eq_false _ ▸ eq_true_of_ne_false hne⟩
        rw [this] at hmem
        exact List.not_mem_nil m' hmem
      have hval : ∀ v, r.start ≤ v → v ≤ r.stop →
          mapValueGo v (m :: rest) =
            (if m.source.start ≤ v ∧ v ≤ m.source.stop then
              m.dest.start + (v - m.source.start) else v) := by
        intro v h1 h2
        rw [mapValueGo]
        split
        · rfl
        · apply mapValueGo_of_not_contains
          intro m' hm'
          rw [Bool.eq_false_iff]
          intro hc
          have := contains_overlap h1 h2 hc
          rw [hrest m' hm'] at this
          exact Bool.noConfusion this
      have hm1 : m.source.start ≤ m.source.stop := hs m (List.mem_cons_self m rest)
      rw [hloop, if_neg (overlapPieces_ne_nil r m)]
      have hcov : covers (overlapPieces r m) w ↔
          ((m.dest.start + (max r.start m.source.start - m.source.start) ≤ w ∧
            w ≤ m.dest.start + (max r.start m.source.start - m.source.start) +
              (min r.stop m.source.stop - max r.start m.source.start)) ∨
            (r.start < m.source.start ∧ r.start ≤ w ∧ w ≤ m.source.start - 1) ∨
            (m.source.stop < r.stop ∧ m.source.stop + 1 ≤ w ∧ w ≤ r.stop)) := by
        rw [overlapPieces, List.append_assoc, covers_append, covers_append, covers_singleton]
        constructor
        · rintro (h | h | h)
          · exact Or.inl h
          · split at h
            · rw [covers_singleton] at h
              exact Or.inr (Or.inl ⟨by omega, h.1, h.2⟩)
            · exact absurd h (by simp [covers])
          · split at h
            · rw [covers_singleton] at h
              exact Or.inr (Or.inr ⟨by omega, h.1, h.2⟩)
            · exact absurd h (by simp [covers])
        · rintro (h | ⟨hc, h⟩ | ⟨hc, h⟩)
          · exact Or.inl h
          · refine Or.inr (Or.inl ?_)
            rw [if_pos (by omega)]
            exact covers_singleton.2 h
          · refine Or.inr (Or.inr ?_)
            rw [if_pos (by omega)]
            exact covers_singleton.2 h
      rw [hcov, pieces_iff hr hm1 (by omega) (by omega)]
      constructor
      · rintro ⟨v, h1, h2, rfl⟩
        exact ⟨v, h1, h2, (hval v h1 h2).symm⟩
      · rintro ⟨v, h1, h2, rfl⟩
        exact ⟨v, h1, h2, hval v h1 h2⟩

lemma covers_concatMap {f : Interval → List Interval} {coll : List Interval} {w : Nat} :
    covers (concatMap f coll) w ↔ ∃ r ∈ coll, covers (f r) w := by
  simp only [covers, mem_concatMap]
  constructor
  · rintro ⟨i, ⟨r, hrmem, hir⟩, hb⟩
    exact ⟨r, hrmem, i, hir, hb⟩
  · rintro ⟨r, hrmem, i, hir, hb⟩
    exact ⟨i, ⟨r, hrmem, hir⟩, hb⟩

lemma mapRange_covers {rm : RangeMap} {r : Interval}
    (hr : r.start ≤ r.stop)
    (hs : ∀ m ∈ rm.range_mappings, m.source.start ≤ m.source.stop)
    (h1 : (rm.range_mappings.filter (overlapb r)).length ≤ 1) (w : Nat) :
    covers (rm.map_source_range_to_destination_range r) w ↔
      ∃ v, r.start ≤ v ∧ v ≤ r.stop ∧ w = rm.map_source_value_to_destination v :=
  loop_covers hr rm.range_mappings hs h1 w

lemma applyStage_covers {rm : RangeMap} {coll : List Interval}
    (hs : ∀ m ∈ rm.range_mappings, m.source.start ≤ m.source.stop)
    (hall : ∀ r ∈ coll,
      r.start ≤ r.stop ∧ (rm.range_mappings.filter (overlapb r)).length ≤ 1) (w : Nat) :
    covers (applyStage rm coll) w ↔
      ∃ v, covers coll v ∧ w = rm.map_source_value_to_destination v := by
  rw [applyStage, covers_concatMap]
  constructor
  · rintro ⟨r, hrmem, hcov⟩
    rcases (mapRange_covers (hall r hrmem).1 hs (hall r hrmem).2 w).1 hcov with ⟨v, h1, h2, rfl⟩
    exact ⟨v, ⟨r, hrmem, h1, h2⟩, rfl⟩
  · rintro ⟨v, ⟨r, hrmem, h1, h2⟩, rfl⟩
    exact ⟨r, hrmem,
      (mapRange_covers (hall r hrmem).1 hs (hall r hrmem).2 _).2 ⟨v, h1, h2, rfl⟩⟩

lemma goodb_cons {rm : RangeMap} {rest : List RangeMap} {coll : List Interval} :
    goodb (rm :: rest) coll = true ↔
      ((∀ r ∈ coll, (rm.range_mappings.filter (overlapb r)).length ≤ 1) ∧
        goodb rest (applyStage rm coll) = true) := by
  rw [goodb, Bool.and_eq_true, List.all_eq_true]
  constructor
  · rintro ⟨ha, hb⟩
    refine ⟨fun r hrmem => ?_, hb⟩
    have := ha r hrmem
    rwa [atMostOneb, decide_eq_true_eq] at this
  · rintro ⟨ha, hb⟩
    refine ⟨fun r hrmem => ?_, hb⟩
    rw [atMostOneb, decide_eq_true_eq]
    exact ha r hrmem

lemma stages_covers :
    ∀ (maps : List RangeMap) (coll : List Interval),
      (∀ rm ∈ maps, ∀ m ∈ rm.range_mappings, m.source.start ≤ m.source.stop) →
      (∀ i ∈ coll, i.start ≤ i.stop) →
      goodb maps coll = true →
      ∀ w, covers (applyStages maps coll) w ↔
        ∃ v, covers coll v ∧ w = mapValueStages maps v
  | [], coll, _, _, _, w => by
    rw [applyStages]
    constructor
    · intro h
      exact ⟨w, h, rfl⟩
    · rintro ⟨v, hv, rfl⟩
      exact hv
  | rm :: rest, coll, hsrc, hwf, hgood, w => by
    rw [applyStages]
    rcases goodb_cons.1 hgood with ⟨hone, hgrest⟩
    have hsm : ∀ m ∈ rm.range_mappings, m.source.start ≤ m.source.stop :=
      hsrc rm (List.mem_cons_self rm rest)
    have hall : ∀ r ∈ coll,
        r.start ≤ r.stop ∧ (rm.range_mappings.filter (overlapb r)).length ≤ 1 :=
      fun r hrmem => ⟨hwf r hrmem, hone r hrmem⟩
    rw [stages_covers rest (applyStage rm coll)
      (fun rm' h => hsrc rm' (List.mem_cons_of_mem rm h)) (applyStage_wf hwf) hgrest w]
    constructor
    · rintro ⟨u, hu, rfl⟩
      rcases (applyStage_covers hsm hall u).1 hu with ⟨v, hv, rfl⟩
      exact ⟨v, hv, rfl⟩
    · rintro ⟨v, hv, rfl⟩
      exact ⟨rm.map_source_value_to_destination v,
        (applyStage_covers hsm hall _).2 ⟨v, hv, rfl⟩, rfl⟩

lemma seed_min_eq {maps : List RangeMap} {sr : Interval}
    (hsr : sr.start ≤ sr.stop)
    (hsrc : ∀ rm ∈ maps, ∀ m ∈ rm.range_mappings, m.source.start ≤ m.source.stop)
    (hgood : goodb maps [sr] = true) :
    listMin (sr.members.map (mapValueStages maps)) =
      listMin ((runSeed maps sr).map Interval.start) := by
  have hwf0 : ∀ i ∈ [sr], i.start ≤ i.stop := by
    intro i hi
    rw [List.mem_singleton] at hi
    exact hi ▸ hsr
  have hcov : ∀ w, covers (runSeed maps sr) w ↔
      ∃ v, (sr.start ≤ v ∧ v ≤ sr.stop) ∧ w = mapValueStages maps v := by
    intro w
    rw [runSeed, stages_covers maps [sr] hsrc hwf0 hgood w]
    constructor
    · rintro ⟨v, hv, rfl⟩
      exact ⟨v, covers_singleton.1 hv, rfl⟩
    · rintro ⟨v, hv, rfl⟩
      exact ⟨v, covers_singleton.2 hv, rfl⟩
  have hwfF : ∀ i ∈ runSeed maps sr, i.start ≤ i.stop := applyStages_wf maps hwf0
  have hptw : ∀ w, w ∈ sr.members.map (mapValueStages maps) ↔ covers (runSeed maps sr) w := by
    intro w
    rw [hcov, List.mem_map]
    constructor
    · rintro ⟨v, hv, rfl⟩
      exact ⟨v, (mem_members hsr).1 hv, rfl⟩
    · rintro ⟨v, hv, rfl⟩
      exact ⟨v, (mem_members hsr).2 hv, rfl⟩
  cases hm : listMin ((runSeed maps sr).map Interval.start) with
  | none => exact absurd hm (listMin_starts_ne_none maps sr)
  | some b =>
    apply listMin_eq_some_of
    · rcases List.mem_map.1 (listMin_mem hm) with ⟨i, himem, rfl⟩
      exact (hptw _).2 ⟨i, himem, Nat.le_refl _, hwfF i himem⟩
    · intro x hx
      rcases (hptw x).1 hx with ⟨i, himem, hle, _⟩
      exact Nat.le_trans (listMin_le hm i.start (List.mem_map_of_mem Interval.start himem)) hle

lemma loop_len_sum {r : Interval} (hr : r.start ≤ r.stop) :
    ∀ l : List RangeMapping,
      (∀ m ∈ l, m.source.start ≤ m.source.stop) →
      ((if mapRangeLoop r l = [] then [r] else mapRangeLoop r l).map Interval.len).sum = r.len
  | [] => by
    intro _
    rw [mapRangeLoop, if_pos rfl]
    simp [Interval.len]
  | m :: rest => by
    intro hs
    by_cases hskip : r.stop < m.source.start ∨ r.start > m.source.stop
    · rw [mapRangeLoop, if_pos hskip]
      exact loop_len_sum hr rest (fun m' h => hs m' (List.mem_cons_of_mem m h))
    · have hloop : mapRangeLoop r (m :: rest) = overlapPieces r m := by
        rw [mapRangeLoop, if_neg hskip]
        rfl
      have hm1 : m.source.start ≤ m.source.stop := hs m (List.mem_cons_self m rest)
      rw [hloop, if_neg (overlapPieces_ne_nil r m), overlapPieces]
      by_cases h1 : r.start < m.source.start <;> by_cases h2 : r.stop > m.source.stop <;>
        simp only [h1, h2, if_pos, if_neg, if_true, if_false, List.append_nil,
          List.map_append, List.sum_append, List.map_cons, List.map_nil, List.sum_cons,
          List.sum_nil, Interval.len] <;>
        omega

lemma mapValueGoChecked_eq (v : Nat) :
    ∀ l : List RangeMapping, mapValueGoChecked v l = some (mapValueGo v l)
  | [] => rfl
  | m :: rest => by
    rw [mapValueGoChecked, mapValueGo]
    split
    · rename_i h
      rw [csub, if_pos h.1]
      rfl
    · exact mapValueGoChecked_eq v rest

lemma mapRangeLoopChecked_eq {r : Interval} (hr : r.start ≤ r.stop) :
    ∀ l : List RangeMapping,
      (∀ m ∈ l, m.source.start ≤ m.source.stop) →
      mapRangeLoopChecked r l = some (mapRangeLoop r l)
  | [] => by
    intro _
    rfl
  | m :: rest => by
    intro hs
    rw [mapRangeLoopChecked, mapRangeLoop]
    split
    · exact mapRangeLoopChecked_eq hr rest (fun m' h => hs m' (List.mem_cons_of_mem m h))
    · rename_i hskip
      have hm1 : m.source.start ≤ m.source.stop := hs m (List.mem_cons_self m rest)
      have hc1 : m.source.start ≤ max r.start m.source.start := Nat.le_max_right _ _
      have hc2 : max r.start m.source.start ≤ min r.stop m.source.stop := by omega
      by_cases h1 : r.start < m.source.start
      · have hc3 : 1 ≤ m.source.start := by omega
        simp only [csub, if_pos hc1, if_pos hc2, if_pos h1, if_pos hc3, Option.some_bind,
          Option.map_some]
        rfl
      · simp only [csub, if_pos hc1, if_pos hc2, if_neg h1, Option.some_bind, Option.map_some]
        rfl

lemma listMin_starts_eq (maps : List RangeMap) (sr : Interval) :
    listMin ((runSeed maps sr).map Interval.start) = some (specBest maps sr) := by
  cases hm : listMin ((runSeed maps sr).map Interval.start) with
  | none => exact absurd hm (listMin_starts_ne_none maps sr)
  | some b =>
    rw [specBest, hm]
    rfl

lemma pointwise_eq (maps : List RangeMap) :
    ∀ seeds : List Interval,
      (∀ sr ∈ seeds, sr.start ≤ sr.stop) →
      (∀ rm ∈ maps, ∀ m ∈ rm.range_mappings, m.source.start ≤ m.source.stop) →
      (∀ sr ∈ seeds, goodb maps [sr] = true) →
      pointwiseMode seeds maps = listMin (seeds.map (specBest maps))
  | [] => by
    intro _ _ _
    rfl
  | sr :: rest => by
    intro hwf hsrc hgood
    rw [pointwiseMode, concatMap, listMin_append, List.map_cons, listMin_cons]
    have h1 : listMin (sr.members.map (mapValueStages maps)) = some (specBest maps sr) := by
      rw [seed_min_eq (hwf sr (List.mem_cons_self sr rest)) hsrc
        (hgood sr (List.mem_cons_self sr rest)), listMin_starts_eq]
    have h2 : listMin (concatMap (fun s => s.members.map (mapValueStages maps)) rest) =
        listMin (rest.map (specBest maps)) :=
      pointwise_eq maps rest (fun s h => hwf s (List.mem_cons_of_mem sr h)) hsrc
        (fun s h => hgood s (List.mem_cons_of_mem sr h))
    rw [h1, h2]

/-! ## Claim theorems -/

/-- C1: for every stage and input interval `r`,
`map_source_range_to_destination_range` honors only the first mapping (in
vector order) whose source range overlaps `r`: it emits the overlap
translated by that mapping, the unchanged left remainder
`[r.start, source.start - 1]` when `r.start < source.start`, the unchanged
right remainder `[source.stop + 1, r.stop]` when `r.stop > source.stop`,
then stops scanning (remainders are not re-fed through the same stage);
when no mapping overlaps `r`, the result is exactly `[r]`. -/
theorem c1_first_overlap_only (rm : RangeMap) (r : Interval) :
    rm.map_source_range_to_destination_range r =
      match rm.range_mappings.find? (overlapb r) with
      | some m => overlapPieces r m
      | none => [r] :=
  mapRange_find rm r

/-- C2: `solve_part2` processes each seed interval independently (a working
collection initialized to the singleton, replaced by the concatenation of
the interval mapping over the collection once per stage, in order —
`specBest` via `runSeed`), records the minimum interval start of the final
collection per seed, and returns the minimum across all seeds; for a
non-empty seed list the result is an actual value. -/
theorem c2_part2_min_across_seeds (seeds : List Interval) (maps : List RangeMap)
    (hne : seeds ≠ []) :
    solve_part2 (seeds, maps) = listMin (seeds.map (specBest maps)) ∧
    solve_part2 (seeds, maps) ≠ none := by
  have h : solve_part2 (seeds, maps) = listMin (seeds.map (specBest maps)) := by
    show part2Go maps seeds none = _
    rw [part2Go_eq maps seeds none]
    rfl
  refine ⟨h, ?_⟩
  rw [h]
  apply listMin_ne_none
  simp only [ne_eq, List.map_eq_nil_iff]
  exact hne

/-- C2 witness at a concrete input. -/
theorem c2_witness :
    solve_part2 ([⟨79, 92⟩], [exStage]) =
      listMin (([⟨79, 92⟩] : List Interval).map (specBest [exStage])) ∧
    solve_part2 ([⟨79, 92⟩], [exStage]) ≠ none :=
  c2_part2_min_across_seeds [⟨79, 92⟩] [exStage] (by decide)

/-- C3: for a well-formed input interval and well-formed source ranges, the
interval lengths of the output of `map_source_range_to_destination_range`
sum to the length of the input interval: no elements created or lost. -/
theorem c3_length_conservation (rm : RangeMap) (r : Interval)
    (hr : r.start ≤ r.stop)
    (hs : ∀ m ∈ rm.range_mappings, m.source.start ≤ m.source.stop) :
    ((rm.map_source_range_to_destination_range r).map Interval.len).sum = r.len :=
  loop_len_sum hr rm.range_mappings hs

/-- C3 witness at a concrete input. -/
theorem c3_witness :
    ((exStage.map_source_range_to_destination_range ⟨79, 92⟩).map Interval.len).sum =
      (Interval.mk 79 92).len :=
  c3_length_conservation exStage ⟨79, 92⟩ (by decide) (by decide)

/-- C4: `map_source_value_to_destination` returns the translated value for
the first mapping whose source range contains the input, and the input
unchanged when none does; on the single-mapping stage
`(dest_start = 50, source_start = 98, length = 2)` it maps 98 to 50,
99 to 51 and 79 to 79. -/
theorem c4_map_value_first_match :
    (∀ (rm : RangeMap) (v : Nat),
      rm.map_source_value_to_destination v =
        match rm.range_mappings.find? (containsb v) with
        | some m => m.dest.start + (v - m.source.start)
        | none => v) ∧
    (RangeMap.mk [mkMapping 50 98 2]).map_source_value_to_destination 98 = 50 ∧
    (RangeMap.mk [mkMapping 50 98 2]).map_source_value_to_destination 99 = 51 ∧
    (RangeMap.mk [mkMapping 50 98 2]).map_source_value_to_destination 79 = 79 :=
  ⟨fun rm v => mapValueGo_find v rm.range_mappings, by decide, by decide, by decide⟩

/-- C5: when every working interval overlaps at most one mapping per stage
(`goodb`), with well-formed seed intervals and source ranges, the
point-wise exhaustive mode equals the interval-based `solve_part2`. -/
theorem c5_pointwise_matches_part2 (seeds : List Interval) (maps : List RangeMap)
    (hwf : ∀ sr ∈ seeds, sr.start ≤ sr.stop)
    (hsrc : ∀ rm ∈ maps, ∀ m ∈ rm.range_mappings, m.source.start ≤ m.source.stop)
    (hgood : ∀ sr ∈ seeds, goodb maps [sr] = true) :
    pointwiseMode seeds maps = solve_part2 (seeds, maps) := by
  rw [pointwise_eq maps seeds hwf hsrc hgood]
  show _ = part2Go maps seeds none
  rw [part2Go_eq maps seeds none]
  rfl

/-- C5 witness at a concrete input satisfying the overlap condition. -/
theorem c5_witness :
    pointwiseMode [⟨97, 99⟩] [RangeMap.mk [mkMapping 50 98 2]] =
      solve_part2 ([⟨97, 99⟩], [RangeMap.mk [mkMapping 50 98 2]]) :=
  c5_pointwise_matches_part2 [⟨97, 99⟩] [RangeMap.mk [mkMapping 50 98 2]]
    (by decide) (by decide) (by decide)

/-- C6: both lookups are total and their subtractions are guarded: the
checked variants, in which every subtraction fails on underflow, return
`some` of the plain results — for the value lookup unconditionally, and for
the interval mapping whenever the input interval and the source ranges are
well-formed. -/
theorem c6_total_guarded_subtractions :
    (∀ (rm : RangeMap) (v : Nat),
      mapValueGoChecked v rm.range_mappings =
        some (rm.map_source_value_to_destination v)) ∧
    (∀ (rm : RangeMap) (r : Interval), r.start ≤ r.stop →
      (∀ m ∈ rm.range_mappings, m.source.start ≤ m.source.stop) →
      mapRangeChecked rm r = some (rm.map_source_range_to_destination_range r)) := by
  refine ⟨fun rm v => mapValueGoChecked_eq v rm.range_mappings, fun rm r hr hs => ?_⟩
  rw [mapRangeChecked, mapRangeLoopChecked_eq hr rm.range_mappings hs]
  rfl

/-- C6 witness at concrete inputs. -/
theorem c6_witness :
    mapValueGoChecked 99 exStage.range_mappings =
      some (exStage.map_source_value_to_destination 99) ∧
    mapRangeChecked exStage ⟨79, 92⟩ =
      some (exStage.map_source_range_to_destination_range ⟨79, 92⟩) :=
  ⟨c6_total_guarded_subtractions.1 exStage 99,
    c6_total_guarded_subtractions.2 exStage ⟨79, 92⟩ (by decide) (by decide)⟩

/-- C7: a mapping built by the stage parser from a triple with
`length >= 1` has destination interval `[dest_start, dest_start + length - 1]`
and source interval `[source_start, source_start + length - 1]`, of equal
length, and every value of the source is translated by the fixed offset
`destination.start - source.start`. -/
theorem c7_mapping_lengths_delta (d s L : Nat) (hL : 1 ≤ L) :
    (mkMapping d s L).dest.len = L ∧ (mkMapping d s L).source.len = L ∧
    (mkMapping d s L).dest = ⟨d, d + L - 1⟩ ∧
    (mkMapping d s L).source = ⟨s, s + L - 1⟩ ∧
    ∀ v, s ≤ v → v ≤ s + L - 1 →
      ((RangeMap.mk [mkMapping d s L]).map_source_value_to_destination v : Int) =
        (v : Int) + ((d : Int) - (s : Int)) := by
  refine ⟨?_, ?_, rfl, rfl, ?_⟩
  · simp only [mkMapping, Interval.len]
    omega
  · simp only [mkMapping, Interval.len]
    omega
  · intro v h1 h2
    have hv : (RangeMap.mk [mkMapping d s L]).map_source_value_to_destination v =
        d + (v - s) := by
      rw [RangeMap.map_source_value_to_destination, mapValueGo, if_pos]
      · rfl
      · exact ⟨h1, h2⟩
    rw [hv]
    omega

/-- C7 witness at the concrete triple `(50, 98, 2)`. -/
theorem c7_witness :
    (mkMapping 50 98 2).dest.len = 2 ∧ (mkMapping 50 98 2).source.len = 2 ∧
    ((RangeMap.mk [mkMapping 50 98 2]).map_source_value_to_destination 99 : Int) =
      (99 : Int) + ((50 : Int) - (98 : Int)) :=
  ⟨(c7_mapping_lengths_delta 50 98 2 (by decide)).1,
    (c7_mapping_lengths_delta 50 98 2 (by decide)).2.1,
    (c7_mapping_lengths_delta 50 98 2 (by decide)).2.2.2.2 99 (by decide) (by decide)⟩

/-- C8: `solve_part2` is deterministic — it is a pure function of its
input, so two runs on equal inputs produce equal results (there is no
hidden mutable state in the embedding of the pipeline). -/
theorem c8_deterministic (a b : List Interval × List RangeMap) (h : a = b) :
    solve_part2 a = solve_part2 b :=
  congrArg solve_part2 h

/-- C8 witness: two runs on the same concrete input agree. -/
theorem c8_witness :
    solve_part2 ([⟨79, 92⟩], [exStage]) = solve_part2 ([⟨79, 92⟩], [exStage]) :=
  c8_deterministic ([⟨79, 92⟩], [exStage]) ([⟨79, 92⟩], [exStage]) rfl

/-- C9: the interval mapping always returns a non-empty vector, hence for a
singleton starting collection the working collection stays non-empty through
every stage and the inner minimum of `solve_part2` never fails. -/
theorem c9_pipeline_nonempty :
    (∀ (rm : RangeMap) (r : Interval),
      rm.map_source_range_to_destination_range r ≠ []) ∧
    (∀ (maps : List RangeMap) (sr : Interval), runSeed maps sr ≠ []) ∧
    (∀ (maps : List RangeMap) (sr : Interval),
      listMin ((runSeed maps sr).map Interval.start) ≠ none) :=
  ⟨mapRange_ne_nil, fun maps _ => applyStages_ne_nil maps (by simp),
    listMin_starts_ne_none⟩

/-- C10: on an empty seed-interval collection both solvers reach the final
`unwrap` of a still-`None` accumulator, modelled here as `none` (a panic,
not a defined numeric result). -/
theorem c10_empty_seeds_panic (maps : List RangeMap) :
    solve_part1 ([], maps) = none ∧ solve_part2 ([], maps) = none :=
  ⟨rfl, rfl⟩

end Day05
